import Mathlib

/-!
Shallow embedding of the folder-scoped incremental search engine in
`src/stream/src-tauri/src/search.rs` (functions `sync_index`, `search_index`,
`search_markdown_files`, the directory walker `visit_dir`, and the filename
regex `DATE_FILENAME_REGEX`), together with theorems settling the behavioural
claims about it.

Modelling conventions:
* Rust `String`/`&str` line text is modelled as `List Char` (Rust `char` and
  Lean `Char` are both Unicode scalar values), so character indexing is direct.
  Byte positions computed by the Rust code are only ever used at char-index
  boundaries (`char_indices` lookups), so byte slicing of the line equals char
  slicing and is modelled as `List.drop`/`List.take`.
* `str::to_lowercase` is modelled character-wise with `Char.toLower`.  The two
  agree on ASCII (all inputs exercised here); the Rust code itself indexes the
  lowered string and the original string with the same character index, i.e.
  it already assumes the lowering is one-to-one.
* Machine integers (`usize`, `u64`) are modelled as `Nat`; `saturating_sub` is
  Nat subtraction.  No arithmetic in the modelled paths can overflow `u64`.
* Fallible operations return `Option`/`Except`.  A `tantivy` panic is
  modelled as `Option.none`.
-/

namespace StreamSearch

/-- UTF-16 width of one character exactly as Rust `char::len_utf16` computes
it: 1 for code points below `0x10000`, else 2 (search.rs:364,369). -/
def lenUtf16 (c : Char) : Nat := if c.toNat < 65536 then 1 else 2

/-- Rust `str::split_whitespace` on a character list: the maximal runs of
non-whitespace characters, in order; no empty pieces are produced
(search.rs:276). -/
def splitWs (s : List Char) : List (List Char) :=
  match s with
  | [] => []
  | c :: rest =>
    if c.isWhitespace then splitWs rest
    else
      (c :: rest.takeWhile (fun d => !d.isWhitespace)) ::
        splitWs (rest.dropWhile (fun d => !d.isWhitespace))
termination_by s.length
decreasing_by
  · simp
  · simp only [List.length_cons]
    have := (List.dropWhile_sublist (l := rest) (fun d => !d.isWhitespace)).length_le
    omega

/-- The query terms: `query_str.to_lowercase().split_whitespace()`
(search.rs:274-278). -/
def queryTermsOf (q : List Char) : List (List Char) :=
  splitWs (q.map Char.toLower)

/-- The inner `while` loop of search.rs:314-330: starting at character
position `i`, collect the `(start, end)` character spans at which `term`
matches `lineLower`, advancing past each match (`i += term_chars.len()`)
and by one otherwise.  The `term.isEmpty` case is the `continue` guard of
search.rs:310-312, under which the loop is never entered. -/
def scanTermFrom (lineLower term : List Char) (i : Nat) : List (Nat × Nat) :=
  if term.isEmpty then []
  else if _h : i + term.length ≤ lineLower.length then
    if (lineLower.drop i).take term.length = term then
      (i, i + term.length) :: scanTermFrom lineLower term (i + term.length)
    else
      scanTermFrom lineLower term (i + 1)
  else []
termination_by lineLower.length + 1 - i
decreasing_by
  · have : 1 ≤ term.length := by cases term <;> simp_all
    omega
  · omega

/-- search.rs:300-331: all `(char_start, char_end)` spans of every query term
inside the line, case-insensitively; the per-term span lists are concatenated
in query-term order.  (The byte coordinates the loop also records are never
used downstream and are omitted.) -/
def matchPositions (lineContent : List Char) (terms : List (List Char)) :
    List (Nat × Nat) :=
  let lineLower := lineContent.map Char.toLower
  terms.flatMap (fun t => scanTermFrom lineLower t 0)

/-- One document as retrieved from the index for a query (the stored fields
read back at search.rs:280-298).  Scores are `f32` relevance values that the
code only passes through; they are modelled as an opaque `Nat`. -/
structure RetrievedDoc where
  file_path : String
  line_content : List Char
  line_number : Nat
  score : Nat
deriving DecidableEq, Repr

/-- The `SearchMatch` struct of search.rs:13-21.  `char_start`/`char_end` are
(despite their names) UTF-16 code-unit offsets relative to
`context_snippet` (search.rs:372-379). -/
structure SearchMatch where
  file_path : String
  line_number : Nat
  char_start : Nat
  char_end : Nat
  context_snippet : List Char
  score : Nat
deriving DecidableEq, Repr

/-- The anchor span of search.rs:333-339: the first recorded match span, or
the default `(0, min len 50)` when no span was recorded. -/
def anchorOf (line : List Char) (terms : List (List Char)) : Nat × Nat :=
  (matchPositions line terms).head?.getD (0, min line.length 50)

/-- The context-window character bounds of search.rs:342-343: 50 characters
before the anchor start (`saturating_sub`) to 50 after the anchor end,
clamped to the line. -/
def contextBoundsOf (line : List Char) (terms : List (List Char)) : Nat × Nat :=
  ((anchorOf line terms).1 - 50, min ((anchorOf line terms).2 + 50) line.length)

/-- The context snippet of search.rs:345-354: the characters between the
context bounds (the Rust code slices bytes, but only at `char_indices`
boundaries, so this is the same character range). -/
def snippetOf (line : List Char) (terms : List (List Char)) : List Char :=
  let b := contextBoundsOf line terms
  (line.drop b.1).take (b.2 - b.1)

/-- search.rs:333-379: turn one retrieved document into a `SearchMatch`:
anchor on the first recorded span (or default to `[0, min len 50)`), build
the snippet of up to 50 characters of context on each side, and convert the
snippet-relative anchor boundaries (search.rs:357-358) to UTF-16 code-unit
offsets by summing `len_utf16` over the preceding snippet characters
(search.rs:361-370). -/
def processDoc (terms : List (List Char)) (doc : RetrievedDoc) : SearchMatch :=
  let line := doc.line_content
  let anchor := anchorOf line terms
  let ctxStart := (contextBoundsOf line terms).1
  let snippet := snippetOf line terms
  { file_path := doc.file_path
    line_number := doc.line_number
    char_start := ((snippet.take (anchor.1 - ctxStart)).map lenUtf16).sum
    char_end := ((snippet.take (anchor.2 - ctxStart)).map lenUtf16).sum
    context_snippet := snippet
    score := doc.score }

/-- The filename test of `DATE_FILENAME_REGEX`, search.rs:31-33:
`^(\d{4})-(\d{2})-(\d{2})\.md$`.  (The regex crate's `\d` is the Unicode
decimal-digit class; it is modelled as the ASCII digit test, on which all
inputs considered here agree.)  There is no calendar validation. -/
def dateFilenameMatches (name : List Char) : Bool :=
  match name with
  | [y1, y2, y3, y4, s1, m1, m2, s2, d1, d2, dot, e1, e2] =>
    y1.isDigit && y2.isDigit && y3.isDigit && y4.isDigit && s1 == '-' &&
    m1.isDigit && m2.isDigit && s2 == '-' && d1.isDigit && d2.isDigit &&
    dot == '.' && e1 == 'm' && e2 == 'd'
  | _ => false

/-- Rust `Path::file_name`: the final path component, with trailing `/`
ignored; `none` when nothing remains or the component is `.` or `..`.
(Rust additionally resolves an inner `.` component to its parent, e.g.
`a/.` to `a`; no path exercised here has one.) -/
def fileNameOf (path : List Char) : Option (List Char) :=
  let revNoTrail := path.reverse.dropWhile (fun c => c == '/')
  let name := (revNoTrail.takeWhile (fun c => c != '/')).reverse
  if name = [] ∨ name = ['.'] ∨ name = ['.', '.'] then none else some name

/-- The `extract_date` closure of search.rs:385-393: the first ten characters
of the file name, provided the name matches `DATE_FILENAME_REGEX`. -/
def extractDate (path : String) : Option String :=
  match fileNameOf path.toList with
  | none => none
  | some name =>
      if dateFilenameMatches name then some (String.mk (name.take 10)) else none

/-- Rust `String::cmp` on the extracted date strings: lexicographic order.
Lean's `String` order is lexicographic on characters, which agrees with
Rust's byte order on ASCII strings (extracted dates are ASCII). -/
def strCmp (a b : String) : Ordering :=
  if a < b then .lt else if a = b then .eq else .gt

/-- The comparator passed to `matches.sort_by` at search.rs:384-405:
descending by extracted date, dated before undated, undated pairs equal. -/
def dateCmp (a b : SearchMatch) : Ordering :=
  match extractDate a.file_path, extractDate b.file_path with
  | some da, some db => strCmp db da
  | some _, none => .lt
  | none, some _ => .gt
  | none, none => .eq

/-- Rust `Vec::sort_by` is a stable sort by the comparator; it is modelled by
`List.mergeSort` with `le a b ↔ dateCmp a b ≠ Greater`. -/
def sortByDateCmp (ms : List SearchMatch) : List SearchMatch :=
  ms.mergeSort (fun a b => dateCmp a b != Ordering.gt)

/-- The results struct of search.rs:23-28.  `search_time_ms` is wall-clock
time and is not modelled. -/
structure SearchResults where
  «matches» : List SearchMatch
  total_results : Nat
deriving DecidableEq, Repr

/-- tantivy `TopDocs::with_limit(limit)` applied to the ranked list of all
documents matching the parsed query (search.rs:271): the collector asserts
`limit ≥ 1` — it panics on `limit = 0` (modelled as `none`) — and otherwise
yields the `limit` best-scored documents, i.e. the first `limit` entries of
the score-descending ranked list. -/
def topDocsWithLimit (limit : Nat) (ranked : List RetrievedDoc) :
    Option (List RetrievedDoc) :=
  if limit = 0 then none else some (ranked.take limit)

/-- search.rs:250-415 `search_index`, taking as input the ranked list of all
index documents matching the parsed query (the outcome of tantivy retrieval
at search.rs:271 for a successfully parsed query).  Returns `none` exactly
when the `TopDocs` collector panics.  `total_results` is set to
`matches.len()` (search.rs:411) after the optional date sort. -/
def search_index (ranked : List RetrievedDoc) (queryStr : String)
    (limit : Nat) (sortByDate : Bool) : Option SearchResults :=
  match topDocsWithLimit limit ranked with
  | none => none
  | some docs =>
      let terms := queryTermsOf queryStr.toList
      let ms := docs.map (processDoc terms)
      let ms := if sortByDate then sortByDateCmp ms else ms
      some { «matches» := ms, total_results := ms.length }

/-- The environment one invocation of the `search_markdown_files` command
runs in: outcomes of the app-data-directory lookup, of
`get_or_create_index`, of the non-blocking `try_lock` on the folder's sync
lock, of the 5-second debounce check, of `sync_index`, and of
`search_index`.  Locking and elapsed time are external to a shallow
embedding; the two booleans record which branch the command takes. -/
structure CommandEnv where
  appDataDir : Except String Unit
  getIndex : Except String Unit
  lockAcquired : Bool
  shouldSync : Bool
  syncOutcome : Except String Unit
  searchOutcome : Except String SearchResults

/-- search.rs:417-480 `search_markdown_files`: the command's control and
error flow.  Every failing stage is surfaced with the exact `map_err`
message of the source; in particular a failed `sync_index` aborts the whole
command at search.rs:464-465 before the search runs. -/
def search_markdown_files (env : CommandEnv) : Except String SearchResults :=
  match env.appDataDir with
  | .error e => .error ("Failed to get app data directory: " ++ e)
  | .ok _ =>
    match env.getIndex with
    | .error e => .error ("Failed to get or create index: " ++ e)
    | .ok _ =>
      let syncStage : Except String Unit :=
        if env.lockAcquired then
          if env.shouldSync then
            match env.syncOutcome with
            | .error e => .error ("Failed to sync index: " ++ e)
            | .ok _ => .ok ()
          else .ok ()
        else .ok ()
      match syncStage with
      | .error e => .error e
      | .ok _ =>
        match env.searchOutcome with
        | .error e => .error ("Search failed: " ++ e)
        | .ok r => .ok r

/-- Rust `Path::extension` on a file name: the part after the last dot,
`none` when there is no dot or when the name starts with its only dot
(a hidden file such as `.md` has no extension). -/
def extensionOf (name : List Char) : Option (List Char) :=
  let rev := name.reverse
  let afterRev := rev.takeWhile (fun c => c != '.')
  if afterRev.length = rev.length then none
  else if name.length - afterRev.length - 1 = 0 then none
  else some afterRev.reverse

/-- The extension test of search.rs:134-135:
`extension.to_string_lossy().to_lowercase() == "md"`. -/
def hasMdExtensionLower (name : List Char) : Bool :=
  match extensionOf name with
  | some e => e.map Char.toLower == ['m', 'd']
  | none => false

/-- One node of the directory tree `visit_dir` walks.  `metadata = none`
models a failing `entry.metadata()` call, which skips the file
(search.rs:143); `metadata = some t` carries the modification time in epoch
milliseconds.  Only files and directories occur (other entry kinds are
skipped by the `is_dir`/`is_file` tests). -/
inductive FsEntry where
  | file (name : String) (metadata : Option Nat)
  | dir (name : String) (entries : List FsEntry)

/-- search.rs:117-159 `visit_dir`, as the contribution of one directory
entry whose parent directory has path `parent`: a file is recorded as
`(parent/name, modified_at)` when its extension lowercases to `md` and its
name matches `DATE_FILENAME_REGEX`; a directory is recursed into. -/
def visitEntry (parent : String) : FsEntry → List (String × Nat)
  | .file name meta =>
      if hasMdExtensionLower name.toList && dateFilenameMatches name.toList then
        match meta with
        | some modifiedAt => [(parent ++ "/" ++ name, modifiedAt)]
        | none => []
      else []
  | .dir name entries =>
      (entries.attach.map (fun e => visitEntry (parent ++ "/" ++ name) e.1)).flatten
termination_by e => sizeOf e
decreasing_by
  have := List.sizeOf_lt_of_mem e.2
  simp only [FsEntry.dir.sizeOf_spec]
  omega

/-- The whole scan of search.rs:161: the files found under the folder root
(the root's own entries joined against the folder path). -/
def scanFolder (folderPath : String) (entries : List FsEntry) : List (String × Nat) :=
  entries.flatMap (visitEntry folderPath)

/-- One stored document of the index (the schema of search.rs:51-58): the
`doc!` built at search.rs:231-236. -/
structure IndexedDoc where
  file_path : String
  line_content : List Char
  line_number : Nat
  modified_at : Nat
deriving DecidableEq, Repr

/-- The `(file_path → modified_at)` map recovered from the stored documents
(search.rs:170-186).  A `HashMap` insert keeps the last inserted value, so
the lookup finds the last document with the path; under the index invariant
all documents of a path carry the same `modified_at`, making the iteration
order irrelevant. -/
def indexedLookup (docs : List IndexedDoc) (p : String) : Option Nat :=
  (docs.reverse.find? (fun d => d.file_path == p)).map (·.modified_at)

/-- The `current_files` map lookup (search.rs:164): last entry for a path
wins.  `visit_dir` yields each file path at most once, so the theorems
assume the scanned paths are distinct, under which this is the obvious
association lookup. -/
def currentLookup (files : List (String × Nat)) (p : String) : Option Nat :=
  (files.reverse.find? (fun f => f.1 == p)).map (·.2)

/-- The first diff loop of search.rs:193-204, collecting `files_to_add`: a
scanned file is added when it is absent from the index or stored with a
different `modified_at`.  (The loop iterates the `current_files` map; the
model iterates the scan list, which agrees whenever the scanned paths are
distinct.) -/
def filesToAdd (files : List (String × Nat)) (docs : List IndexedDoc) :
    List (String × Nat) :=
  files.filter (fun f =>
    match indexedLookup docs f.1 with
    | some im => decide (f.2 ≠ im)
    | none => true)

/-- `files_to_remove` (search.rs:193-211): the changed files from the first
loop followed by the indexed files no longer present on disk from the
second loop. -/
def filesToRemove (files : List (String × Nat)) (docs : List IndexedDoc) :
    List String :=
  (files.filterMap (fun f =>
    match indexedLookup docs f.1 with
    | some im => if f.2 ≠ im then some f.1 else none
    | none => none)) ++
  ((docs.map (·.file_path)).dedup.filter (fun p => (currentLookup files p).isNone))

/-- File contents as `fs::read_to_string` sees them; `none` models a read
error, which skips the file for this pass (search.rs:226). -/
def FileReader := String → Option (List Char)

/-- Rust `str::split_inclusive('\n')`: pieces each ending in the newline
that produced them, the last piece possibly newline-free; no empty final
piece. -/
def splitInclNl (s : List Char) : List (List Char) :=
  match s with
  | [] => []
  | c :: rest =>
    if c = '\n' then ['\n'] :: splitInclNl rest
    else
      match splitInclNl rest with
      | [] => [[c]]
      | p :: ps => (c :: p) :: ps

/-- The per-piece map of Rust `str::lines`: remove one trailing `\n`, and
when one was removed also one trailing `\r`. -/
def lineOfPiece (p : List Char) : List Char :=
  if p.getLast? = some '\n' then
    let q := p.dropLast
    if q.getLast? = some '\r' then q.dropLast else q
  else p

/-- Rust `str::lines` (search.rs:228). -/
def rustLines (s : List Char) : List (List Char) :=
  (splitInclNl s).map lineOfPiece

/-- `line.trim().is_empty()` (search.rs:229): Rust trims Unicode whitespace
from both ends, so the trimmed line is empty exactly when every character is
whitespace.  (`Char.isWhitespace` covers the ASCII whitespace of the inputs
considered here.) -/
def isBlank (l : List Char) : Bool := l.all Char.isWhitespace

/-- The documents added for one file of `files_to_add` (search.rs:224-241):
one `IndexedDoc` per non-blank line, 1-based line numbers, all tagged with
the file's scanned `modified_at`; an unreadable file contributes nothing. -/
def docsForFile (read : FileReader) (f : String × Nat) : List IndexedDoc :=
  match read f.1 with
  | none => []
  | some content =>
      (rustLines content).enum.filterMap (fun il =>
        if isBlank il.2 then none
        else some ⟨f.1, il.2, il.1 + 1, f.2⟩)

/-- The outcome of one `sync_index` pass over the committed documents:
the new committed state, whether an `IndexWriter` was opened, and how many
commits were performed. -/
structure SyncOutcome where
  state : List IndexedDoc
  writerOpened : Bool
  commits : Nat
deriving Repr

/-- search.rs:108-247 `sync_index`, as a function of the scanned file list,
the per-file read outcomes and the committed documents.  When the computed
diff is empty no writer is opened and the state is unchanged
(search.rs:214); otherwise all documents of removed/changed paths are
deleted by `delete_term` on `file_path`, the new documents are added, and
one commit ends the batch.  tantivy's `delete_term` only affects documents
added before it, and all deletes precede all adds (search.rs:218-241), so
the deletions filter the previous state only. -/
def sync_index (read : FileReader) (files : List (String × Nat))
    (docs : List IndexedDoc) : SyncOutcome :=
  let toAdd := filesToAdd files docs
  let toRemove := filesToRemove files docs
  if toAdd.isEmpty && toRemove.isEmpty then
    { state := docs, writerOpened := false, commits := 0 }
  else
    { state := docs.filter (fun d => !(toRemove.contains d.file_path)) ++
        toAdd.flatMap (docsForFile read)
      writerOpened := true
      commits := 1 }

/-- One opportunistic or rebuild-time sync pass: the filesystem scan result
and the file contents visible to it. -/
structure SyncPass where
  files : List (String × Nat)
  read : FileReader

/-- The committed index state after a sequence of sync passes starting from
the empty index. -/
def runSyncs (passes : List SyncPass) : List IndexedDoc :=
  passes.foldl (fun docs p => (sync_index p.read p.files docs).state) []

/-- The committed-index invariant of the data model: no stored document has
blank (empty or whitespace-only) line content, all documents of one file
path carry the same `modified_at`, and no two documents share both
`file_path` and `line_number`. -/
def IndexInv (docs : List IndexedDoc) : Prop :=
  (∀ d ∈ docs, isBlank d.line_content = false) ∧
  docs.Pairwise (fun a b => a.file_path = b.file_path → a.modified_at = b.modified_at) ∧
  docs.Pairwise (fun a b => ¬ (a.file_path = b.file_path ∧ a.line_number = b.line_number))

/-- Specification-side predicate: the (nonempty) character sequence `t`
occurs in `l` starting at position `j`. -/
def occursAt (l t : List Char) (j : Nat) : Prop :=
  t ≠ [] ∧ (l.drop j).take t.length = t

instance (l t : List Char) (j : Nat) : Decidable (occursAt l t j) :=
  inferInstanceAs (Decidable (_ ∧ _))

theorem occursAt_add_length_le {l t : List Char} {j : Nat}
    (h : occursAt l t j) : j + t.length ≤ l.length := by
  obtain ⟨hne, ht⟩ := h
  have h1 : 0 < t.length := List.length_pos.mpr hne
  have hlen := congrArg List.length ht
  simp only [List.length_take, List.length_drop] at hlen
  omega

theorem scanTermFrom_eq_nil_iff (l t : List Char) (s : Nat) :
    scanTermFrom l t s = [] ↔ ∀ j, s ≤ j → ¬ occursAt l t j := by
  refine scanTermFrom.induct l t
    (fun s => (scanTermFrom l t s = [] ↔ ∀ j, s ≤ j → ¬ occursAt l t j))
    ?_ ?_ ?_ ?_ s
  · intro s hempty
    rw [scanTermFrom, if_pos hempty]
    simp only [true_iff]
    intro j _ hocc
    exact hocc.1 (List.isEmpty_iff.mp hempty)
  · intro s hempty hle heq _ih
    rw [scanTermFrom, if_neg hempty, dif_pos hle, if_pos heq]
    refine iff_of_false (by simp) ?_
    intro h
    exact h s (le_refl s) ⟨fun hnil => hempty (by simp [hnil]), heq⟩
  · intro s hempty hle hne ih
    rw [scanTermFrom, if_neg hempty, dif_pos hle, if_neg hne, ih]
    constructor
    · intro h j hj hocc
      rcases Nat.eq_or_lt_of_le hj with rfl | hlt
      · exact hne hocc.2
      · exact h j hlt hocc
    · intro h j hj hocc
      exact h j (Nat.le_of_succ_le hj) hocc
  · intro s hempty hgt
    rw [scanTermFrom, if_neg hempty, dif_neg hgt]
    simp only [true_iff]
    intro j hj hocc
    exact hgt (Nat.le_trans (Nat.add_le_add_right hj t.length)
      (occursAt_add_length_le hocc))

theorem scanTermFrom_head {l t : List Char} {i : Nat} (s : Nat) (hs : s ≤ i)
    (hi : occursAt l t i) (hmin : ∀ j, s ≤ j → j < i → ¬ occursAt l t j) :
    (scanTermFrom l t s).head? = some (i, i + t.length) := by
  refine scanTermFrom.induct l t
    (fun s => s ≤ i → (∀ j, s ≤ j → j < i → ¬ occursAt l t j) →
      (scanTermFrom l t s).head? = some (i, i + t.length))
    ?_ ?_ ?_ ?_ s hs hmin
  · intro s hempty _ _
    exact absurd (List.isEmpty_iff.mp hempty) hi.1
  · intro s hempty hle heq _ih hs' hmin'
    have hocc : occursAt l t s := ⟨fun hnil => hempty (by simp [hnil]), heq⟩
    rcases Nat.eq_or_lt_of_le hs' with rfl | hlt
    · rw [scanTermFrom, if_neg hempty, dif_pos hle, if_pos heq]
      rfl
    · exact absurd hocc (hmin' s (le_refl s) hlt)
  · intro s hempty hle hne ih hs' hmin'
    have hsi : s ≠ i := by
      rintro rfl
      exact hne hi.2
    rw [scanTermFrom, if_neg hempty, dif_pos hle, if_neg hne]
    exact ih (Nat.lt_of_le_of_ne hs' hsi)
      (fun j hj hji => hmin' j (Nat.le_of_succ_le hj) hji)
  · intro s hempty hgt hs' _
    exact absurd (Nat.le_trans (Nat.add_le_add_right hs' t.length)
      (occursAt_add_length_le hi)) hgt

theorem matchPositions_eq_nil {line : List Char} {terms : List (List Char)}
    (h : ∀ t ∈ terms, ∀ j, ¬ occursAt (line.map Char.toLower) t j) :
    matchPositions line terms = [] := by
  simp only [matchPositions, List.flatMap_eq_nil_iff]
  intro t ht
  exact (scanTermFrom_eq_nil_iff _ t 0).mpr (fun j _ => h t ht j)

/-- Hypothesis-discharge helper: an empty scan from position 0 means the
term occurs nowhere. -/
theorem not_occursAt_of_scan_nil {l t : List Char}
    (h : scanTermFrom l t 0 = []) : ∀ j, ¬ occursAt l t j :=
  fun j => (scanTermFrom_eq_nil_iff l t 0).mp h j (Nat.zero_le j)

/-- The code's `len_utf16` computation coincides with the library's
independent `Char.utf16Size`. -/
theorem lenUtf16_eq_utf16Size (c : Char) :
    lenUtf16 c = (Char.utf16Size c).toNat := by
  have key : (c.val ≤ 65535) ↔ c.val.toNat ≤ 65535 := by
    rw [UInt32.le_def, BitVec.le_def]
    exact Iff.rfl
  simp only [lenUtf16, Char.utf16Size, Char.toNat]
  by_cases h : c.val ≤ 65535
  · rw [if_pos (by have := key.mp h; omega : c.val.toNat < 65536), if_pos h]
    rfl
  · rw [if_neg (by intro hlt; exact h (key.mpr (by omega)) : ¬ c.val.toNat < 65536),
      if_neg h]
    rfl

unseal splitWs scanTermFrom visitEntry

/-- Claim C1 counterexample: the claim that a failed opportunistic sync
must not fail the search is false on the code.  With the app-data
directory and index available, the sync lock acquired, the debounce
satisfied, a failing `sync_index` and a search that would succeed, the
whole `search_markdown_files` command returns the sync error
(search.rs:464-465 propagates it with `?`); the search result is not
returned. -/
theorem C1_counterexample :
    search_markdown_files
      ⟨.ok (), .ok (), true, true, .error "disk full", .ok ⟨[], 0⟩⟩ =
      .error "Failed to sync index: disk full" := rfl

/-- Claim C1 (amended): when the opportunistic sync is skipped — the
non-blocking lock attempt fails or the 5-second debounce suppresses it —
the search proceeds against the previously committed index state; but when
a sync is attempted and fails, the whole search call returns the sync
error and the search is not attempted. -/
theorem C1_amended (env : CommandEnv) (r : SearchResults)
    (hd : env.appDataDir = .ok ()) (hi : env.getIndex = .ok ())
    (hs : env.searchOutcome = .ok r) :
    (¬ (env.lockAcquired = true ∧ env.shouldSync = true) →
      search_markdown_files env = .ok r) ∧
    (∀ e, env.lockAcquired = true → env.shouldSync = true →
      env.syncOutcome = .error e →
      search_markdown_files env = .error ("Failed to sync index: " ++ e)) := by
  obtain ⟨ad, gi, la, ss, so, seo⟩ := env
  simp only at hd hi hs
  subst hd hi hs
  constructor
  · intro hnot
    rcases la with _ | _
    · rfl
    · rcases ss with _ | _
      · rfl
      · exact absurd ⟨rfl, rfl⟩ hnot
  · rintro e hla hss hso
    simp only at hso hla hss
    subst hso
    subst hla
    subst hss
    rfl

theorem C1_amended_witness :
    search_markdown_files
        ⟨.ok (), .ok (), false, true, .error "e1", .ok ⟨[], 5⟩⟩ = .ok ⟨[], 5⟩ ∧
    search_markdown_files
        ⟨.ok (), .ok (), true, true, .error "e1", .ok ⟨[], 5⟩⟩ =
      .error ("Failed to sync index: " ++ "e1") :=
  ⟨(C1_amended ⟨.ok (), .ok (), false, true, .error "e1", .ok ⟨[], 5⟩⟩ ⟨[], 5⟩
      rfl rfl rfl).1 (by simp),
   (C1_amended ⟨.ok (), .ok (), true, true, .error "e1", .ok ⟨[], 5⟩⟩ ⟨[], 5⟩
      rfl rfl rfl).2 "e1" rfl rfl rfl⟩

/-- Claim C2 counterexample: with two indexed lines matching the query and
`limit = 1`, the returned `total_results` is 1 — the length of the
truncated `matches` list (search.rs:411) — not the pre-truncation match
count 2 the claim requires. -/
theorem C2_counterexample :
    (search_index [⟨"a", ['x'], 1, 9⟩, ⟨"b", ['x'], 1, 8⟩] "x" 1 false).map
      (fun r => (r.total_results, r.«matches».length)) = some (1, 1) := rfl

/-- Claim C2 (amended): `total_results` always equals the length of the
returned `matches` list, which is at most `limit`; the number of lines
matching before truncation is not reported. -/
theorem C2_amended (ranked : List RetrievedDoc) (qs : String) (limit : Nat)
    (sb : Bool) (h : limit ≠ 0) :
    ∃ r, search_index ranked qs limit sb = some r ∧
      r.total_results = r.«matches».length ∧ r.«matches».length ≤ limit := by
  unfold search_index topDocsWithLimit
  rw [if_neg h]
  refine ⟨_, rfl, rfl, ?_⟩
  rcases sb with _ | _ <;>
    simp [sortByDateCmp, (List.mergeSort_perm _ _).length_eq, List.length_take,
      Nat.min_le_left]

theorem C2_amended_witness :
    ∃ r, search_index [⟨"a", ['x'], 1, 9⟩, ⟨"b", ['x'], 1, 8⟩] "x" 1 false =
        some r ∧
      r.total_results = r.«matches».length ∧ r.«matches».length ≤ 1 :=
  C2_amended [⟨"a", ['x'], 1, 9⟩, ⟨"b", ['x'], 1, 8⟩] "x" 1 false (by decide)

/-- Claim C3 counterexample: a search with `limit = 0` does not return an
empty success — the `TopDocs` collector asserts `limit ≥ 1` and panics, so
the call never produces a `SearchResults` (modelled as `none`). -/
theorem C3_counterexample : search_index [] "hello" 0 false = none := rfl

/-- Claim C3 (amended): a well-formed query that matches no indexed line
returns a success with `total_results = 0` and an empty `matches` list for
any `limit ≥ 1`; but `limit = 0` panics inside tantivy's `TopDocs`
collector instead of returning an empty result. -/
theorem C3_amended (ranked : List RetrievedDoc) (qs : String) (sb : Bool)
    (limit : Nat) (h : 1 ≤ limit) :
    search_index [] qs limit sb = some ⟨[], 0⟩ ∧
    search_index ranked qs 0 sb = none := by
  constructor
  · unfold search_index topDocsWithLimit
    rw [if_neg (by omega)]
    rcases sb with _ | _ <;> simp [sortByDateCmp]
  · rfl

theorem C3_amended_witness :
    search_index [] "alice paris" 100 true = some ⟨[], 0⟩ ∧
    search_index [] "alice paris" 0 true = none :=
  C3_amended [] "alice paris" true 100 (by decide)

/-- Claim C6 (confirmed): the returned `utf16_start`/`utf16_end` (fields
`char_start`/`char_end`) are offsets relative to the returned context
snippet, each equal to the sum of the UTF-16 widths of the snippet
characters preceding the corresponding anchor-span boundary — the width
taken from the library's independent `Char.utf16Size` (1 on the Basic
Multilingual Plane, 2 beyond it); and concretely, for a line carrying the
surrogate-pair character 🦀 before the match of `hello`, the offsets are
the true UTF-16 code-unit offsets 3 and 8 (not the scalar counts 2 and 7),
with the snippet being the whole line. -/
theorem C6_utf16_offsets :
    (∀ (terms : List (List Char)) (doc : RetrievedDoc),
      (processDoc terms doc).char_start =
        (((processDoc terms doc).context_snippet.take
            ((anchorOf doc.line_content terms).1 -
              (contextBoundsOf doc.line_content terms).1)).map
          (fun c => (Char.utf16Size c).toNat)).sum ∧
      (processDoc terms doc).char_end =
        (((processDoc terms doc).context_snippet.take
            ((anchorOf doc.line_content terms).2 -
              (contextBoundsOf doc.line_content terms).1)).map
          (fun c => (Char.utf16Size c).toNat)).sum) ∧
    processDoc (queryTermsOf "hello".toList) ⟨"f", "🦀 hello".toList, 1, 0⟩ =
      ⟨"f", 1, 3, 8, "🦀 hello".toList, 0⟩ := by
  have hmap : (lenUtf16 : Char → Nat) = fun c => (Char.utf16Size c).toNat :=
    funext lenUtf16_eq_utf16Size
  exact ⟨fun terms doc => ⟨by simp [processDoc, hmap], by simp [processDoc, hmap]⟩,
    by decide⟩

/-- Claim C8 (confirmed): a sync pass whose computed added and removed file
lists are both empty opens no writer, performs no commit and leaves the
committed state unchanged; a pass with changes opens the writer and
performs exactly one commit for the whole batch. -/
theorem C8_single_commit (read : FileReader) (files : List (String × Nat))
    (docs : List IndexedDoc) :
    (filesToAdd files docs = [] ∧ filesToRemove files docs = [] →
      (sync_index read files docs).writerOpened = false ∧
      (sync_index read files docs).commits = 0 ∧
      (sync_index read files docs).state = docs) ∧
    (¬ (filesToAdd files docs = [] ∧ filesToRemove files docs = []) →
      (sync_index read files docs).writerOpened = true ∧
      (sync_index read files docs).commits = 1) := by
  have hb : ((filesToAdd files docs).isEmpty && (filesToRemove files docs).isEmpty)
      = true ↔ (filesToAdd files docs = [] ∧ filesToRemove files docs = []) := by
    simp [List.isEmpty_iff]
  simp only [sync_index]
  by_cases h : filesToAdd files docs = [] ∧ filesToRemove files docs = []
  · rw [if_pos (hb.mpr h)]
    exact ⟨fun _ => ⟨rfl, rfl, rfl⟩, fun hn => absurd h hn⟩
  · rw [if_neg (fun hc => h (hb.mp hc))]
    exact ⟨fun hyes => absurd hyes h, fun _ => ⟨rfl, rfl⟩⟩

theorem C8_single_commit_witness :
    ((sync_index (fun _ => some ['a']) [("/f/2024-01-01.md", 3)]
        [⟨"/f/2024-01-01.md", ['a'], 1, 3⟩]).commits = 0 ∧
      (sync_index (fun _ => some ['a']) [("/f/2024-01-01.md", 3)]
        [⟨"/f/2024-01-01.md", ['a'], 1, 3⟩]).state =
        [⟨"/f/2024-01-01.md", ['a'], 1, 3⟩]) ∧
    (sync_index (fun _ => some ['a']) [("/f/2024-01-01.md", 4)]
        [⟨"/f/2024-01-01.md", ['a'], 1, 3⟩]).commits = 1 :=
  ⟨⟨((C8_single_commit (fun _ => some ['a']) [("/f/2024-01-01.md", 3)]
        [⟨"/f/2024-01-01.md", ['a'], 1, 3⟩]).1 (by decide)).2.1,
    ((C8_single_commit (fun _ => some ['a']) [("/f/2024-01-01.md", 3)]
        [⟨"/f/2024-01-01.md", ['a'], 1, 3⟩]).1 (by decide)).2.2⟩,
   ((C8_single_commit (fun _ => some ['a']) [("/f/2024-01-01.md", 4)]
        [⟨"/f/2024-01-01.md", ['a'], 1, 3⟩]).2 (by decide)).2⟩

/-- Claim C10 (confirmed): when no query term occurs case-insensitively in
the line's text, the match is still produced, with the anchor defaulting
to the span `[0, min 50 len)`, hence `utf16_start = 0`, and the context
snippet being the line's prefix of length
`min (min len 50 + 50) len` — i.e. clamped to at most `min 50 len + 50`
characters. -/
theorem C10_no_literal_occurrence (qs : String) (doc : RetrievedDoc)
    (h : ∀ t ∈ queryTermsOf qs.toList, ∀ j,
      ¬ occursAt (doc.line_content.map Char.toLower) t j) :
    anchorOf doc.line_content (queryTermsOf qs.toList) =
      (0, min doc.line_content.length 50) ∧
    (processDoc (queryTermsOf qs.toList) doc).char_start = 0 ∧
    (processDoc (queryTermsOf qs.toList) doc).context_snippet =
      doc.line_content.take
        (min (min doc.line_content.length 50 + 50) doc.line_content.length) := by
  have hmp := matchPositions_eq_nil h
  have ha : anchorOf doc.line_content (queryTermsOf qs.toList) =
      (0, min doc.line_content.length 50) := by
    unfold anchorOf
    rw [hmp]
    rfl
  refine ⟨ha, ?_, ?_⟩
  · simp only [processDoc, contextBoundsOf]
    rw [ha]
    simp
  · simp only [processDoc, snippetOf, contextBoundsOf]
    rw [ha]
    simp

theorem C10_witness :
    anchorOf "hello".toList (queryTermsOf "zzz".toList) = (0, 5) ∧
    (processDoc (queryTermsOf "zzz".toList) ⟨"f", "hello".toList, 1, 0⟩).char_start
      = 0 ∧
    (processDoc (queryTermsOf "zzz".toList)
        ⟨"f", "hello".toList, 1, 0⟩).context_snippet =
      "hello".toList.take (min (min "hello".toList.length 50 + 50)
        "hello".toList.length) :=
  C10_no_literal_occurrence "zzz" ⟨"f", "hello".toList, 1, 0⟩
    (fun t ht j => by
      have ht' : t = ['z', 'z', 'z'] := by
        have : queryTermsOf "zzz".toList = [['z', 'z', 'z']] := rfl
        rw [this] at ht
        simpa using ht
      rw [ht']
      exact not_occursAt_of_scan_nil (by decide) j)

set_option maxRecDepth 8192 in
/-- Claim C4 counterexample: the scanner applies no calendar validation —
the file `2025-02-30.md` (day 30 of February) matches the filename regex,
is returned by the directory walk, and a sync pass over it indexes its
content. -/
theorem C4_counterexample :
    visitEntry "/journal" (.dir "j" [.file "2025-02-30.md" (some 7)]) =
      [("/journal/j/2025-02-30.md", 7)] ∧
    (sync_index (fun _ => some "feb".toList)
        [("/journal/j/2025-02-30.md", 7)] []).state =
      [⟨"/journal/j/2025-02-30.md", "feb".toList, 1, 7⟩] :=
  ⟨rfl, rfl⟩

/-- Claim C4 (amended): a file is included in the scanned set only if its
extension lowercases to `md` and its file name matches
`^\d{4}-\d{2}-\d{2}\.md$`; the digits are not checked for calendar
validity, so e.g. `2025-02-30.md` is scanned and indexed. -/
theorem C4_scan_filter : ∀ (e : FsEntry) (parent p : String) (t : Nat),
    (p, t) ∈ visitEntry parent e →
    ∃ pre name, p = pre ++ "/" ++ name ∧
      hasMdExtensionLower name.toList = true ∧
      dateFilenameMatches name.toList = true
  | .file name meta, parent, p, t, h => by
    unfold visitEntry at h
    by_cases hf : (hasMdExtensionLower name.toList &&
        dateFilenameMatches name.toList) = true
    · rw [if_pos hf] at h
      obtain ⟨h1, h2⟩ := Bool.and_eq_true_iff.mp hf
      cases meta with
      | some m =>
        simp only [List.mem_singleton, Prod.mk.injEq] at h
        exact ⟨parent, name, h.1, h1, h2⟩
      | none => simp at h
    · rw [if_neg hf] at h
      simp at h
  | .dir name entries, parent, p, t, h => by
    unfold visitEntry at h
    simp only [List.mem_flatten, List.mem_map] at h
    obtain ⟨xs, ⟨e', _he', rfl⟩, hmem⟩ := h
    exact C4_scan_filter e'.1 (parent ++ "/" ++ name) p t hmem
termination_by e => sizeOf e
decreasing_by
  have := List.sizeOf_lt_of_mem e'.2
  simp only [FsEntry.dir.sizeOf_spec]
  omega

theorem C4_scan_filter_witness :
    ∃ pre name, "/r/2025-02-30.md" = pre ++ "/" ++ name ∧
      hasMdExtensionLower name.toList = true ∧
      dateFilenameMatches name.toList = true :=
  C4_scan_filter (.file "2025-02-30.md" (some 7)) "/r" "/r/2025-02-30.md" 7
    (by decide)

set_option maxRecDepth 8192 in
/-- Claim C5 counterexample: for the line `hello world` and the query
`world hello`, the engine does record the spans of every term —
`[(6, 11), (0, 5)]`, grouped by term in query order — but it anchors the
snippet on `(6, 11)`, the first occurrence of the first query term, even
though the recorded occurrence `(0, 5)` of the other term has a strictly
lower offset. -/
theorem C5_counterexample :
    matchPositions "hello world".toList (queryTermsOf "world hello".toList) =
      [(6, 11), (0, 5)] ∧
    anchorOf "hello world".toList (queryTermsOf "world hello".toList) =
      (6, 11) :=
  ⟨rfl, rfl⟩

/-- Claim C5 (amended): the engine computes the case-insensitive
occurrences of every query term, but the anchor span is the lowest-offset
occurrence of the first query term (in query order) that occurs in the
line at all — not the occurrence with the lowest offset among all terms. -/
theorem C5_first_term_anchor (line : List Char) (ts1 ts2 : List (List Char))
    (t : List Char) (i : Nat)
    (h1 : ∀ u ∈ ts1, ∀ j, ¬ occursAt (line.map Char.toLower) u j)
    (h2 : occursAt (line.map Char.toLower) t i)
    (h3 : ∀ j, j < i → ¬ occursAt (line.map Char.toLower) t j) :
    anchorOf line (ts1 ++ t :: ts2) = (i, i + t.length) := by
  have hnil : ts1.flatMap
      (fun u => scanTermFrom (line.map Char.toLower) u 0) = [] := by
    rw [List.flatMap_eq_nil_iff]
    intro u hu
    exact (scanTermFrom_eq_nil_iff _ u 0).mpr (fun j _ => h1 u hu j)
  have hh : (scanTermFrom (line.map Char.toLower) t 0).head? =
      some (i, i + t.length) :=
    scanTermFrom_head 0 (Nat.zero_le i) h2 (fun j _ hj => h3 j hj)
  simp only [anchorOf, matchPositions, List.flatMap_append, List.flatMap_cons,
    hnil, List.nil_append, List.head?_append, hh, Option.or_some, Option.getD_some]

theorem C5_first_term_anchor_witness :
    anchorOf "hello world".toList
      ([['q', 'q']] ++ ['w', 'o', 'r', 'l', 'd'] :: [['h', 'e', 'l', 'l', 'o']]) =
      (6, 6 + ['w', 'o', 'r', 'l', 'd'].length) :=
  C5_first_term_anchor "hello world".toList [['q', 'q']]
    [['h', 'e', 'l', 'l', 'o']] ['w', 'o', 'r', 'l', 'd'] 6
    (fun u hu j => by
      have hu' : u = ['q', 'q'] := by simpa using hu
      rw [hu']
      exact not_occursAt_of_scan_nil (by decide) j)
    (by decide)
    (by decide)

theorem ordering_bne_gt (o : Ordering) :
    (o != Ordering.gt) = true ↔ o ≠ Ordering.gt := by
  cases o <;> decide

theorem strCmp_ne_gt {x y : String} : strCmp x y ≠ Ordering.gt ↔ x ≤ y := by
  unfold strCmp
  rcases lt_trichotomy x y with h | h | h
  · simp [h, le_of_lt h]
  · simp [h]
  · have h1 : ¬ x < y := lt_asymm h
    have h2 : x ≠ y := (ne_of_lt h).symm
    rw [if_neg h1, if_neg h2]
    exact iff_of_false (by simp) (not_le.mpr h)

/-- Characterization of the merge-sort order induced by the comparator:
`dateCmp a b` is not Greater exactly when `a` dated implies the dates are
non-increasing and `a` undated implies `b` undated. -/
theorem dateCmp_ne_gt {a b : SearchMatch} :
    ((dateCmp a b != Ordering.gt) = true) ↔
      ((extractDate a.file_path = none → extractDate b.file_path = none) ∧
       (∀ da db, extractDate a.file_path = some da →
         extractDate b.file_path = some db → db ≤ da)) := by
  unfold dateCmp
  rcases hA : extractDate a.file_path with _ | da <;>
    rcases hB : extractDate b.file_path with _ | db
  · exact iff_of_true rfl ⟨fun _ => rfl, fun x y hx _ => absurd hx (by simp)⟩
  · exact iff_of_false
      (show ¬ ((Ordering.gt != Ordering.gt) = true) by decide)
      (fun hr => by simpa using hr.1 rfl)
  · exact iff_of_true rfl ⟨fun hc => absurd hc (by simp),
      fun x y _ hy => absurd hy (by simp)⟩
  · show ((strCmp db da != Ordering.gt) = true) ↔ _
    rw [ordering_bne_gt, strCmp_ne_gt]
    constructor
    · intro hle
      refine ⟨fun hc => absurd hc (by simp), ?_⟩
      intro x y hx hy
      cases Option.some_inj.mp hx
      cases Option.some_inj.mp hy
      exact hle
    · intro hr
      exact hr.2 da db rfl rfl

theorem dateLe_trans (a b c : SearchMatch)
    (hab : (dateCmp a b != Ordering.gt) = true)
    (hbc : (dateCmp b c != Ordering.gt) = true) :
    (dateCmp a c != Ordering.gt) = true := by
  rw [dateCmp_ne_gt] at hab hbc ⊢
  obtain ⟨h1ab, h2ab⟩ := hab
  obtain ⟨h1bc, h2bc⟩ := hbc
  refine ⟨fun hA => h1bc (h1ab hA), fun da dc hA hC => ?_⟩
  rcases hB : extractDate b.file_path with _ | db
  · exact absurd (h1bc hB) (by simp [hC])
  · exact le_trans (h2bc db dc hB hC) (h2ab da db hA hB)

theorem dateLe_total (a b : SearchMatch) :
    ((dateCmp a b != Ordering.gt) || (dateCmp b a != Ordering.gt)) = true := by
  unfold dateCmp
  rcases extractDate a.file_path with _ | da <;>
    rcases extractDate b.file_path with _ | db
  · rfl
  · rfl
  · rfl
  · show (((if db < da then Ordering.lt
        else if db = da then Ordering.eq else Ordering.gt) != Ordering.gt) ||
      ((if da < db then Ordering.lt
        else if da = db then Ordering.eq else Ordering.gt) != Ordering.gt)) = true
    rcases lt_trichotomy db da with h | h | h
    · rw [if_pos h]
      rfl
    · subst h
      rw [if_neg (lt_irrefl db), if_pos rfl]
      rfl
    · have h2 : ¬ db < da := lt_asymm h
      rw [if_neg h2, if_neg (ne_of_gt h), if_pos h]
      rfl

theorem dateLe_imp (a b : SearchMatch)
    (h : (dateCmp a b != Ordering.gt) = true) :
    (extractDate a.file_path = none → extractDate b.file_path = none) ∧
    (∀ da db, extractDate a.file_path = some da →
      extractDate b.file_path = some db → db ≤ da) :=
  dateCmp_ne_gt.mp h

/-- The date sort is stable on the undated matches: filtering the sorted
list to the undated entries gives exactly the undated entries of the input
in their original order. -/
theorem sortByDateCmp_filter_undated (ms : List SearchMatch) :
    (sortByDateCmp ms).filter (fun m => (extractDate m.file_path).isNone) =
      ms.filter (fun m => (extractDate m.file_path).isNone) := by
  have hpw : (ms.filter (fun m => (extractDate m.file_path).isNone)).Pairwise
      (fun a b => (dateCmp a b != Ordering.gt) = true) := by
    apply List.pairwise_of_forall_mem_list
    intro a ha b hb
    have ha' := (List.mem_filter.mp ha).2
    have hb' := (List.mem_filter.mp hb).2
    simp only [Option.isNone_iff_eq_none] at ha' hb'
    rw [dateCmp_ne_gt]
    simp [ha', hb']
  have hsub : (ms.filter (fun m => (extractDate m.file_path).isNone)).Sublist
      (sortByDateCmp ms) :=
    List.sublist_mergeSort dateLe_trans dateLe_total hpw (List.filter_sublist ms)
  have hfsub : (ms.filter (fun m => (extractDate m.file_path).isNone)).Sublist
      ((sortByDateCmp ms).filter (fun m => (extractDate m.file_path).isNone)) := by
    have h2 := List.Sublist.filter (fun m => (extractDate m.file_path).isNone) hsub
    simpa only [List.filter_filter, Bool.and_self] using h2
  have hperm := (List.mergeSort_perm ms
      (fun a b => dateCmp a b != Ordering.gt)).filter
      (fun m => (extractDate m.file_path).isNone)
  exact (hfsub.eq_of_length hperm.length_eq.symm).symm

/-- Claim C7 (confirmed): with `order = date` requested (and a
non-panicking `limit`), the returned matches are pairwise ordered so that
the extracted `YYYY-MM-DD` strings are non-increasing (on these fixed-width
ASCII strings the lexicographic order is the chronological order), a match
with no extractable date never precedes a dated one, and the undated
matches keep exactly their pre-sort relative order; the comparator is total
so the sort cannot crash on undated paths. -/
theorem C7_date_order (ranked : List RetrievedDoc) (qs : String) (limit : Nat)
    (h : limit ≠ 0) :
    ∃ r, search_index ranked qs limit true = some r ∧
      r.«matches».Pairwise (fun a b =>
        (extractDate a.file_path = none → extractDate b.file_path = none) ∧
        (∀ da db, extractDate a.file_path = some da →
          extractDate b.file_path = some db → db ≤ da)) ∧
      r.«matches».filter (fun m => (extractDate m.file_path).isNone) =
        ((ranked.take limit).map
          (processDoc (queryTermsOf qs.toList))).filter
          (fun m => (extractDate m.file_path).isNone) := by
  unfold search_index topDocsWithLimit
  rw [if_neg h]
  refine ⟨_, rfl, ?_, ?_⟩
  · have hs := List.sorted_mergeSort dateLe_trans dateLe_total
      (((ranked.take limit).map (processDoc (queryTermsOf qs.toList))))
    exact hs.imp (fun hab => dateLe_imp _ _ hab)
  · exact sortByDateCmp_filter_undated _

theorem C7_date_order_witness :
    ∃ r, search_index
        [⟨"/a/2024-01-01.md", ['x'], 1, 9⟩, ⟨"/a/undated.txt", ['x'], 2, 8⟩,
          ⟨"/a/2024-01-05.md", ['x'], 3, 7⟩] "x" 10 true = some r ∧
      r.«matches».Pairwise (fun a b =>
        (extractDate a.file_path = none → extractDate b.file_path = none) ∧
        (∀ da db, extractDate a.file_path = some da →
          extractDate b.file_path = some db → db ≤ da)) ∧
      r.«matches».filter (fun m => (extractDate m.file_path).isNone) =
        (([⟨"/a/2024-01-01.md", ['x'], 1, 9⟩, ⟨"/a/undated.txt", ['x'], 2, 8⟩,
          ⟨"/a/2024-01-05.md", ['x'], 3, 7⟩].take 10).map
          (processDoc (queryTermsOf "x".toList))).filter
          (fun m => (extractDate m.file_path).isNone) :=
  C7_date_order
    [⟨"/a/2024-01-01.md", ['x'], 1, 9⟩, ⟨"/a/undated.txt", ['x'], 2, 8⟩,
      ⟨"/a/2024-01-05.md", ['x'], 3, 7⟩] "x" 10 (by decide)

theorem contains_iff_mem {l : List String} {a : String} :
    l.contains a = true ↔ a ∈ l := by
  rw [List.contains_iff_exists_mem_beq]
  constructor
  · rintro ⟨x, hx, hbeq⟩
    rwa [show a = x from eq_of_beq hbeq]
  · intro h
    exact ⟨a, h, beq_self_eq_true a⟩

theorem mem_docsForFile {read : FileReader} {f : String × Nat} {d : IndexedDoc}
    (hd : d ∈ docsForFile read f) :
    d.file_path = f.1 ∧ d.modified_at = f.2 ∧ isBlank d.line_content = false := by
  unfold docsForFile at hd
  rcases hr : read f.1 with _ | content
  · rw [hr] at hd
    simp at hd
  · rw [hr] at hd
    rw [List.mem_filterMap] at hd
    obtain ⟨il, _, hil⟩ := hd
    by_cases hb : isBlank il.2
    · rw [if_pos hb] at hil
      exact absurd hil (by simp)
    · rw [if_neg hb] at hil
      cases Option.some_inj.mp hil
      exact ⟨rfl, rfl, by simpa using hb⟩

theorem enumFrom_pairwise_fst {α : Type} (n : Nat) (l : List α) :
    (List.enumFrom n l).Pairwise (fun a b => a.1 < b.1) := by
  induction l generalizing n with
  | nil => simp
  | cons x xs ih =>
    rw [List.enumFrom]
    refine List.Pairwise.cons ?_ (ih (n + 1))
    rintro ⟨i, y⟩ hb
    exact Nat.lt_of_succ_le (List.mem_enumFrom hb).1

theorem docsForFile_pairwise_ln (read : FileReader) (f : String × Nat) :
    (docsForFile read f).Pairwise (fun a b => a.line_number ≠ b.line_number) := by
  unfold docsForFile
  rcases read f.1 with _ | content
  · simp
  · rw [List.pairwise_filterMap]
    have henum : (rustLines content).enum.Pairwise (fun a b => a.1 < b.1) := by
      rw [List.enum_eq_enumFrom]
      exact enumFrom_pairwise_fst 0 (rustLines content)
    refine henum.imp ?_
    intro a b hab d hd d' hd'
    by_cases hba : isBlank a.2
    · rw [if_pos hba] at hd
      simp at hd
    · by_cases hbb : isBlank b.2
      · rw [if_pos hbb] at hd'
        simp at hd'
      · rw [if_neg hba] at hd
        rw [if_neg hbb] at hd'
        have hd2 : d = ⟨f.1, a.2, a.1 + 1, f.2⟩ := by simpa using hd.symm
        have hd2' : d' = ⟨f.1, b.2, b.1 + 1, f.2⟩ := by simpa using hd'.symm
        rw [hd2, hd2']
        simpa using Nat.ne_of_lt (Nat.succ_lt_succ hab)

theorem indexedLookup_isSome_of_mem {docs : List IndexedDoc} {d : IndexedDoc}
    (hd : d ∈ docs) : (indexedLookup docs d.file_path).isSome = true := by
  unfold indexedLookup
  have hfind : (docs.reverse.find?
      (fun x => x.file_path == d.file_path)).isSome = true := by
    rw [List.find?_isSome]
    exact ⟨d, List.mem_reverse.mpr hd, beq_self_eq_true d.file_path⟩
  obtain ⟨x, hx⟩ := Option.isSome_iff_exists.mp hfind
  rw [hx]
  rfl

theorem mem_filesToRemove_of_changed {files : List (String × Nat)}
    {docs : List IndexedDoc} {f : String × Nat}
    (hf2 : f ∈ filesToAdd files docs) {im : Nat}
    (him : indexedLookup docs f.1 = some im) :
    f.1 ∈ filesToRemove files docs := by
  have hmem := List.mem_filter.mp hf2
  refine List.mem_append.mpr (Or.inl ?_)
  rw [List.mem_filterMap]
  refine ⟨f, hmem.1, ?_⟩
  rw [him]
  have hne : f.2 ≠ im := by
    have hp := hmem.2
    rw [him] at hp
    simpa using hp
  simp only [ne_eq]
  rw [if_pos hne]

theorem old_new_path_ne {files : List (String × Nat)} {docs : List IndexedDoc}
    {d : IndexedDoc} {f : String × Nat} (hdocs : d ∈ docs)
    (hkeep : (filesToRemove files docs).contains d.file_path = false)
    (hadd : f ∈ filesToAdd files docs) : d.file_path ≠ f.1 := by
  intro heq
  have hsome := indexedLookup_isSome_of_mem hdocs
  rw [heq] at hsome
  obtain ⟨im, him⟩ := Option.isSome_iff_exists.mp hsome
  have hrem : f.1 ∈ filesToRemove files docs :=
    mem_filesToRemove_of_changed hadd him
  rw [← heq] at hrem
  rw [← contains_iff_mem] at hrem
  rw [hrem] at hkeep
  exact Bool.noConfusion hkeep

theorem filesToAdd_fst_nodup {files : List (String × Nat)}
    {docs : List IndexedDoc} (hf : (files.map Prod.fst).Nodup) :
    ((filesToAdd files docs).map Prod.fst).Nodup :=
  hf.sublist ((List.filter_sublist files).map Prod.fst)

/-- The single-pass invariant preservation: one `sync_index` pass over a
scan with distinct file paths preserves the committed-index invariant. -/
theorem sync_index_inv (read : FileReader) (files : List (String × Nat))
    (docs : List IndexedDoc) (hf : (files.map Prod.fst).Nodup)
    (h : IndexInv docs) : IndexInv (sync_index read files docs).state := by
  obtain ⟨hblank, hmtime, huniq⟩ := h
  simp only [sync_index]
  by_cases hc : ((filesToAdd files docs).isEmpty &&
      (filesToRemove files docs).isEmpty) = true
  · rw [if_pos hc]
    exact ⟨hblank, hmtime, huniq⟩
  · rw [if_neg hc]
    have haddpw : ((filesToAdd files docs)).Pairwise (fun f g => f.1 ≠ g.1) :=
      List.pairwise_map.mp (filesToAdd_fst_nodup hf)
    have hmem_old : ∀ d ∈ docs.filter
        (fun d => !((filesToRemove files docs).contains d.file_path)),
        d ∈ docs ∧ (filesToRemove files docs).contains d.file_path = false := by
      intro d hd
      have := List.mem_filter.mp hd
      exact ⟨this.1, by simpa using this.2⟩
    refine ⟨?_, ?_, ?_⟩
    · intro d hd
      rcases List.mem_append.mp hd with hd | hd
      · exact hblank d (hmem_old d hd).1
      · obtain ⟨fl, -, hdf⟩ := List.mem_flatMap.mp hd
        exact (mem_docsForFile hdf).2.2
    · rw [List.pairwise_append]
      refine ⟨hmtime.sublist (List.filter_sublist docs), ?_, ?_⟩
      · rw [List.flatMap_def, List.pairwise_flatten]
        constructor
        · intro l' hl'
          obtain ⟨fl, -, rfl⟩ := List.mem_map.mp hl'
          apply List.pairwise_of_forall_mem_list
          intro a ha b hb _
          rw [(mem_docsForFile ha).2.1, (mem_docsForFile hb).2.1]
        · rw [List.pairwise_map]
          refine haddpw.imp ?_
          intro fl g hne a ha b hb hpath
          exact absurd (((mem_docsForFile ha).1.symm.trans hpath).trans
            (mem_docsForFile hb).1) hne
      · intro a ha b hb
        obtain ⟨hain, hkeep⟩ := hmem_old a ha
        obtain ⟨fl, hfl, hbf⟩ := List.mem_flatMap.mp hb
        intro hpath
        exact absurd (hpath.trans (mem_docsForFile hbf).1)
          (old_new_path_ne hain hkeep hfl)
    · rw [List.pairwise_append]
      refine ⟨huniq.sublist (List.filter_sublist docs), ?_, ?_⟩
      · rw [List.flatMap_def, List.pairwise_flatten]
        constructor
        · intro l' hl'
          obtain ⟨fl, -, rfl⟩ := List.mem_map.mp hl'
          refine (docsForFile_pairwise_ln read fl).imp ?_
          intro a b hln hcontra
          exact hln hcontra.2
        · rw [List.pairwise_map]
          refine haddpw.imp ?_
          intro fl g hne a ha b hb hcontra
          exact absurd (((mem_docsForFile ha).1.symm.trans hcontra.1).trans
            (mem_docsForFile hb).1) hne
      · intro a ha b hb
        obtain ⟨hain, hkeep⟩ := hmem_old a ha
        obtain ⟨fl, hfl, hbf⟩ := List.mem_flatMap.mp hb
        intro hcontra
        exact absurd (hcontra.1.trans (mem_docsForFile hbf).1)
          (old_new_path_ne hain hkeep hfl)

theorem runSyncs_inv_aux (passes : List SyncPass) (init : List IndexedDoc)
    (hinit : IndexInv init)
    (hp : ∀ p ∈ passes, (p.files.map Prod.fst).Nodup) :
    IndexInv (passes.foldl
      (fun docs p => (sync_index p.read p.files docs).state) init) := by
  induction passes generalizing init with
  | nil => simpa using hinit
  | cons p ps ih =>
    rw [List.foldl_cons]
    exact ih _ (sync_index_inv _ _ _ (hp p (by simp)) hinit)
      (fun q hq => hp q (by simp [hq]))

/-- Claim C9 (confirmed): starting from the empty index, after any sequence
of sync passes (each over a filesystem scan with distinct file paths, as
`visit_dir` produces), the committed index contains at most one document
per `(file_path, line_number)` pair and no document whose `line_content`
is empty or whitespace-only. -/
theorem C9_index_invariant (passes : List SyncPass)
    (hp : ∀ p ∈ passes, (p.files.map Prod.fst).Nodup) :
    (∀ d ∈ runSyncs passes, isBlank d.line_content = false) ∧
    (runSyncs passes).Pairwise
      (fun a b => ¬ (a.file_path = b.file_path ∧ a.line_number = b.line_number)) := by
  have key : IndexInv (runSyncs passes) :=
    runSyncs_inv_aux passes [] ⟨by simp, by simp, by simp⟩ hp
  exact ⟨key.1, key.2.2⟩

theorem C9_index_invariant_witness :
    (∀ d ∈ runSyncs
        [⟨[("/j/2024-01-01.md", 1)], fun _ => some "a\n\nb".toList⟩,
         ⟨[("/j/2024-01-01.md", 2)], fun _ => some " \nc".toList⟩],
      isBlank d.line_content = false) ∧
    (runSyncs
        [⟨[("/j/2024-01-01.md", 1)], fun _ => some "a\n\nb".toList⟩,
         ⟨[("/j/2024-01-01.md", 2)], fun _ => some " \nc".toList⟩]).Pairwise
      (fun a b => ¬ (a.file_path = b.file_path ∧ a.line_number = b.line_number)) :=
  C9_index_invariant
    [⟨[("/j/2024-01-01.md", 1)], fun _ => some "a\n\nb".toList⟩,
     ⟨[("/j/2024-01-01.md", 2)], fun _ => some " \nc".toList⟩]
    (by decide)

end StreamSearch
